import Mathlib

/-!
Verification of `src/examples/bubble_sort.rs` (reactive-themes repository).

The Rust source is:

  fn bubble_sort(arr: &mut [i32]) {
      let n = arr.len();
      for i in 0..n {
          for j in 0..n - i - 1 {
              if arr[j] > arr[j + 1] {
                  arr.swap(j, j + 1);
              }
          }
      }
  }

We embed the mutable slice as a `List Int` (the routine only compares and
moves `i32` values, never performs arithmetic on them, so `Int` with the
standard order is a faithful model of `i32` here).  The two `for` loops are
embedded as left folds over `List.range`; element accesses `arr[j]`,
`arr[j+1]` and `arr.swap(j, j+1)` are index-based reads/writes on the list.

A second, "checked" embedding returns `Option`: an out-of-bounds index read
or a `usize` subtraction that would underflow yields `none`, modelling the
Rust panics those operations would raise.  Proving the checked embedding
always returns `some` settles the safety claims.

The embedding is parametric in the swap condition `gtb` so that the
stability claim can be settled by instantiating it with a comparison on the
first component of key/tag pairs; `bubble_sort` itself instantiates `gtb`
with `>` on `Int`, exactly the source's `arr[j] > arr[j + 1]`.
-/

/-- The swap condition of the source, `arr[j] > arr[j + 1]`, on `Int`. -/
def gtInt (a b : Int) : Bool := decide (a > b)

/-- One inner-loop body execution at index `j`:
`if arr[j] > arr[j + 1] { arr.swap(j, j + 1) }`.
Out-of-range indices leave the list unchanged (the pure embedding; the
checked embedding below turns them into `none`). -/
def swapIfGt (gtb : α → α → Bool) (arr : List α) (j : Nat) : List α :=
  match arr.get? j, arr.get? (j + 1) with
  | some a, some b => if gtb a b then (arr.set j b).set (j + 1) a else arr
  | _, _ => arr

/-- The inner loop `for j in 0..bound { ... }`. -/
def innerLoop (gtb : α → α → Bool) (arr : List α) (bound : Nat) : List α :=
  (List.range bound).foldl (swapIfGt gtb) arr

/-- The whole routine, parametric in the swap condition:
`let n = arr.len(); for i in 0..n { for j in 0..n - i - 1 { ... } }`. -/
def bubbleSortG (gtb : α → α → Bool) (arr : List α) : List α :=
  (List.range arr.length).foldl
    (fun s i => innerLoop gtb s (arr.length - i - 1)) arr

/-- `bubble_sort` from the source: the generic routine at `i32` ordered by
`>`. -/
def bubble_sort (arr : List Int) : List Int :=
  bubbleSortG gtInt arr

/-- The state after the first `k` iterations of the outer loop of
`bubble_sort` on input `arr`. -/
def outerIters (arr : List Int) (k : Nat) : List Int :=
  (List.range k).foldl (fun s i => innerLoop gtInt s (arr.length - i - 1)) arr

/-- `usize` subtraction with the underflow check Rust performs:
`a - b` panics (here: `none`) when `b > a`. -/
def checkedSub (a b : Nat) : Option Nat :=
  if b ≤ a then some (a - b) else none

/-- Checked inner-loop body: `arr[j]` and `arr[j + 1]` are bounds-checked
reads, so an out-of-range index is a panic (`none`). -/
def swapIfGtChk (gtb : α → α → Bool) (arr : List α) (j : Nat) :
    Option (List α) :=
  match arr.get? j, arr.get? (j + 1) with
  | some a, some b => some (if gtb a b then (arr.set j b).set (j + 1) a else arr)
  | _, _ => none

/-- Checked inner loop. -/
def innerLoopChk (gtb : α → α → Bool) (arr : List α) (bound : Nat) :
    Option (List α) :=
  (List.range bound).foldlM (fun s j => swapIfGtChk gtb s j) arr

/-- Checked whole routine: the bound `n - i - 1` is computed with checked
`usize` subtraction (left to right: `(n - i) - 1`), and every element access
is bounds-checked. -/
def bubbleSortChkG (gtb : α → α → Bool) (arr : List α) : Option (List α) :=
  (List.range arr.length).foldlM
    (fun s i =>
      (checkedSub arr.length i).bind fun t =>
        (checkedSub t 1).bind fun bound => innerLoopChk gtb s bound)
    arr

/-- Checked `bubble_sort` at `i32`. -/
def bubbleSortChk (arr : List Int) : Option (List Int) :=
  bubbleSortChkG gtInt arr

/-- Swap-counting instrumentation of the routine: same loops, same
condition, plus a counter bumped at each executed swap. -/
def stepCnt (gtb : α → α → Bool) (sc : List α × Nat) (j : Nat) :
    List α × Nat :=
  match sc.1.get? j, sc.1.get? (j + 1) with
  | some a, some b =>
      if gtb a b then ((sc.1.set j b).set (j + 1) a, sc.2 + 1) else sc
  | _, _ => sc

/-- The routine with a swap counter threaded through both loops. -/
def bubbleSortCount (gtb : α → α → Bool) (arr : List α) : List α × Nat :=
  (List.range arr.length).foldl
    (fun sc i => (List.range (arr.length - i - 1)).foldl (stepCnt gtb) sc)
    (arr, 0)

/-- Modelled from the spec: the reference algorithm of §4.1 — "for each
outer pass i from 0 to N-1 (exclusive), scan adjacent pairs from position 0
to N-i-2 (inclusive) and swap any pair found out of order (left > right)",
i.e. N-1 total passes with no early exit. -/
def bubbleSortSpec (arr : List Int) : List Int :=
  (List.range (arr.length - 1)).foldl
    (fun s i => innerLoop gtInt s (arr.length - i - 1)) arr

/-- A single structural bubble pass limited to `b` compare-exchange steps:
the recursive counterpart of `innerLoop _ arr b`. -/
def bpassN (gtb : α → α → Bool) : Nat → List α → List α
  | 0, l => l
  | _ + 1, [] => []
  | _ + 1, [a] => [a]
  | b + 1, a :: c :: rest =>
      if gtb a c then c :: bpassN gtb b (a :: rest)
      else a :: bpassN gtb b (c :: rest)

/-- A full structural bubble pass over a whole list. -/
def bpass (gtb : α → α → Bool) : List α → List α
  | [] => []
  | [a] => [a]
  | a :: c :: rest =>
      if gtb a c then c :: bpass gtb (a :: rest)
      else a :: bpass gtb (c :: rest)

/-- Boolean adjacent-sortedness: every left neighbour is `≤` its right
neighbour. -/
def sortedLe : List Int → Bool
  | [] => true
  | [_] => true
  | a :: c :: rest => decide (a ≤ c) && sortedLe (c :: rest)

/-- Key/tag pairs compared by primary key only, with the source's strict
`>` swap condition: used to state stability (spec §8: "tagging duplicates
with a secondary identity before sorting by primary value only"). -/
def gtKey (a b : Int × Nat) : Bool := decide (a.1 > b.1)

/-- The routine run on key/tag pairs, comparing keys only. -/
def bubble_sort_keyed (arr : List (Int × Nat)) : List (Int × Nat) :=
  bubbleSortG gtKey arr

namespace BubbleProofs

variable {α : Type} (gtb : α → α → Bool)

theorem swapIfGt_length (arr : List α) (j : Nat) :
    (swapIfGt gtb arr j).length = arr.length := by
  unfold swapIfGt
  cases h1 : arr.get? j with
  | none => rfl
  | some a =>
    cases h2 : arr.get? (j + 1) with
    | none => rfl
    | some b =>
      by_cases hg : gtb a b = true
      · simp [hg]
      · simp [hg]

theorem swapIfGt_nil (j : Nat) : swapIfGt gtb ([] : List α) j = [] := by
  unfold swapIfGt
  simp

theorem swapIfGt_singleton (x : α) (j : Nat) :
    swapIfGt gtb [x] j = [x] := by
  unfold swapIfGt
  match j with
  | 0 => simp
  | j + 1 => simp

theorem swapIfGt_cons_succ (x : α) (l : List α) (j : Nat) :
    swapIfGt gtb (x :: l) (j + 1) = x :: swapIfGt gtb l j := by
  unfold swapIfGt
  simp only [List.get?_cons_succ]
  cases h1 : l.get? j with
  | none => rfl
  | some a =>
    cases h2 : l.get? (j + 1) with
    | none => rfl
    | some b =>
      by_cases hg : gtb a b = true
      · simp [hg, List.set]
      · simp [hg]

theorem foldl_swapIfGt_nil (js : List Nat) :
    js.foldl (swapIfGt gtb) [] = ([] : List α) := by
  induction js with
  | nil => rfl
  | cons j rest ih => simp [List.foldl_cons, swapIfGt_nil, ih]

theorem foldl_swapIfGt_map_succ (js : List Nat) (x : α) (l : List α) :
    (js.map Nat.succ).foldl (swapIfGt gtb) (x :: l)
      = x :: js.foldl (swapIfGt gtb) l := by
  induction js generalizing l with
  | nil => rfl
  | cons j rest ih =>
    simp only [List.map_cons, List.foldl_cons]
    rw [swapIfGt_cons_succ, ih]

theorem innerLoop_eq_bpassN (b : Nat) (l : List α) :
    innerLoop gtb l b = bpassN gtb b l := by
  induction b generalizing l with
  | zero => cases l <;> rfl
  | succ b ih =>
    unfold innerLoop
    rw [List.range_succ_eq_map, List.foldl_cons]
    match l with
    | [] =>
      rw [swapIfGt_nil, foldl_swapIfGt_nil]
      rfl
    | [x] =>
      rw [swapIfGt_singleton]
      have := foldl_swapIfGt_map_succ gtb (List.range b) x []
      rw [this, foldl_swapIfGt_nil]
      rfl
    | x :: y :: rest =>
      show (List.map Nat.succ (List.range b)).foldl (swapIfGt gtb)
            (swapIfGt gtb (x :: y :: rest) 0) = bpassN gtb (b + 1) (x :: y :: rest)
      have h0 : swapIfGt gtb (x :: y :: rest) 0
          = if gtb x y then y :: x :: rest else x :: y :: rest := by
        unfold swapIfGt
        simp [List.set]
      rw [h0]
      by_cases hg : gtb x y = true
      · rw [if_pos hg, foldl_swapIfGt_map_succ]
        show y :: innerLoop gtb (x :: rest) b = bpassN gtb (b + 1) (x :: y :: rest)
        rw [ih]
        simp [bpassN, hg]
      · rw [if_neg hg, foldl_swapIfGt_map_succ]
        show x :: innerLoop gtb (y :: rest) b = bpassN gtb (b + 1) (x :: y :: rest)
        rw [ih]
        simp [bpassN, hg]

theorem bpass_cons_perm (l : List α) :
    ∀ a : α, (bpass gtb (a :: l)).Perm (a :: l) := by
  induction l with
  | nil => intro a; simp [bpass]
  | cons c rest ih =>
    intro a
    by_cases hg : gtb a c = true
    · show (bpass gtb (a :: c :: rest)).Perm (a :: c :: rest)
      rw [bpass, if_pos hg]
      exact ((ih a).cons c).trans (List.Perm.swap a c rest)
    · show (bpass gtb (a :: c :: rest)).Perm (a :: c :: rest)
      rw [bpass, if_neg hg]
      exact (ih c).cons a

theorem bpass_perm (l : List α) : (bpass gtb l).Perm l := by
  match l with
  | [] => simp [bpass]
  | a :: rest => exact bpass_cons_perm gtb rest a

theorem bpassN_split (rest : List α) :
    ∀ (a : α) (q : List α),
      bpassN gtb rest.length (a :: (rest ++ q)) = bpass gtb (a :: rest) ++ q := by
  induction rest with
  | nil => intro a q; simp [bpassN, bpass]
  | cons c rest ih =>
    intro a q
    show bpassN gtb (rest.length + 1) (a :: c :: (rest ++ q))
        = bpass gtb (a :: c :: rest) ++ q
    rw [bpassN, bpass]
    by_cases hg : gtb a c = true
    · rw [if_pos hg, if_pos hg, ih a q, List.cons_append]
    · rw [if_neg hg, if_neg hg, ih c q, List.cons_append]

theorem bpass_max (l : List Int) :
    ∀ a : Int, ∃ l' m, bpass gtInt (a :: l) = l' ++ [m]
      ∧ (∀ x ∈ l', x ≤ m) ∧ a ≤ m := by
  induction l with
  | nil =>
    intro a
    exact ⟨[], a, by simp [bpass], by simp, le_refl a⟩
  | cons c rest ih =>
    intro a
    by_cases hg : gtInt a c = true
    · have hca : c < a := by simpa [gtInt] using hg
      obtain ⟨l', m, heq, hl', ham⟩ := ih a
      refine ⟨c :: l', m, ?_, ?_, ham⟩
      · show bpass gtInt (a :: c :: rest) = (c :: l') ++ [m]
        rw [bpass, if_pos hg, heq, List.cons_append]
      · intro x hx
        rcases List.mem_cons.mp hx with hx | hx
        · exact hx ▸ le_trans (le_of_lt hca) ham
        · exact hl' x hx
    · have hac : a ≤ c := by
        have : ¬ c < a := by simpa [gtInt] using hg
        omega
      obtain ⟨l', m, heq, hl', hcm⟩ := ih c
      refine ⟨a :: l', m, ?_, ?_, le_trans hac hcm⟩
      · show bpass gtInt (a :: c :: rest) = (a :: l') ++ [m]
        rw [bpass, if_neg hg, heq, List.cons_append]
      · intro x hx
        rcases List.mem_cons.mp hx with hx | hx
        · exact hx ▸ le_trans hac hcm
        · exact hl' x hx

theorem sortedLe_tail (a : Int) (l : List Int) (h : sortedLe (a :: l) = true) :
    sortedLe l = true := by
  cases l with
  | nil => rfl
  | cons c rest =>
    have := h
    rw [sortedLe, Bool.and_eq_true] at this
    exact this.2

theorem sortedLe_cons (m : Int) (q : List Int)
    (hm : ∀ y ∈ q, m ≤ y) (hq : sortedLe q = true) :
    sortedLe (m :: q) = true := by
  cases q with
  | nil => rfl
  | cons c rest =>
    rw [sortedLe, Bool.and_eq_true]
    exact ⟨decide_eq_true (hm c (List.mem_cons_self c rest)), hq⟩

theorem bpassN_sorted_id (b : Nat) :
    ∀ l : List Int, sortedLe l = true → bpassN gtInt b l = l := by
  induction b with
  | zero => intro l _; rfl
  | succ b ih =>
    intro l hl
    match l with
    | [] => rfl
    | [a] => rfl
    | a :: c :: rest =>
      have hac : a ≤ c := by
        have := hl
        rw [sortedLe, Bool.and_eq_true] at this
        exact of_decide_eq_true this.1
      have hg : gtInt a c = false := by
        simp [gtInt]
        omega
      rw [bpassN, hg]
      simp only [Bool.false_eq_true, if_false]
      rw [ih (c :: rest) (sortedLe_tail a _ hl)]

theorem sortedLe_get? (l : List Int) :
    sortedLe l = true → ∀ (i : Nat) (x y : Int),
      l.get? i = some x → l.get? (i + 1) = some y → x ≤ y := by
  induction l with
  | nil => intro _ i x y hx _; simp at hx
  | cons a rest ih =>
    intro hl i x y hx hy
    cases i with
    | zero =>
      cases rest with
      | nil => simp at hy
      | cons c rest' =>
        have hxa : a = x := by simpa using hx
        have hyc : c = y := by simpa using hy
        rw [sortedLe, Bool.and_eq_true] at hl
        exact hxa ▸ hyc ▸ of_decide_eq_true hl.1
    | succ i =>
      exact ih (sortedLe_tail a rest hl) i x y (by simpa using hx)
        (by simpa using hy)

theorem outerIters_succ (arr : List Int) (k : Nat) :
    outerIters arr (k + 1)
      = innerLoop gtInt (outerIters arr k) (arr.length - k - 1) := by
  unfold outerIters
  rw [List.range_succ, List.foldl_append, List.foldl_cons, List.foldl_nil]

/-- The classic bubble-sort invariant: after `k` outer iterations the state
splits as `p ++ q` where `q` (the last `k` positions) is sorted, dominates
every element of `p`, and the whole state is a permutation of the input. -/
theorem outerIters_inv (arr : List Int) :
    ∀ k, k ≤ arr.length → ∃ p q, outerIters arr k = p ++ q
      ∧ q.length = k ∧ sortedLe q = true
      ∧ (∀ x ∈ p, ∀ y ∈ q, x ≤ y)
      ∧ (p ++ q).Perm arr := by
  intro k
  induction k with
  | zero =>
    intro _
    exact ⟨arr, [], by simp [outerIters], rfl, rfl, by simp, by simp⟩
  | succ k ih =>
    intro hk1
    obtain ⟨p, q, hstate, hqlen, hqsorted, hcross, hperm⟩ :=
      ih (Nat.le_of_succ_le hk1)
    have hlen : p.length + q.length = arr.length := by
      have h := hperm.length_eq
      simpa using h
    cases p with
    | nil =>
      simp at hlen
      omega
    | cons a p0 =>
      have hbound : arr.length - k - 1 = p0.length := by
        simp at hlen
        omega
      obtain ⟨l', m, heq, hl', ham⟩ := bpass_max p0 a
      have hpassperm : (l' ++ [m]).Perm (a :: p0) := by
        have h := bpass_perm gtInt (a :: p0)
        rwa [heq] at h
      have hmem : ∀ x ∈ l' ++ [m], x ∈ a :: p0 := fun x hx =>
        hpassperm.mem_iff.mp hx
      have hmp : m ∈ a :: p0 :=
        hmem m (List.mem_append.mpr (Or.inr (List.mem_singleton.mpr rfl)))
      refine ⟨l', m :: q, ?_, by simpa using hqlen, ?_, ?_, ?_⟩
      · rw [outerIters_succ, hstate, innerLoop_eq_bpassN, hbound,
          List.cons_append, bpassN_split, heq, List.append_assoc,
          List.singleton_append]
      · exact sortedLe_cons m q (fun y hy => hcross m hmp y hy) hqsorted
      · intro x hx y hy
        have hxp : x ∈ a :: p0 :=
          hmem x (List.mem_append.mpr (Or.inl hx))
        rcases List.mem_cons.mp hy with hy | hy
        · exact hy ▸ hl' x hx
        · exact hcross x hxp y hy
      · have h1 : (l' ++ m :: q).Perm ((a :: p0) ++ q) := by
          have := hpassperm.append_right q
          rwa [List.append_assoc, List.singleton_append] at this
        exact h1.trans hperm

theorem bubble_sort_eq_outerIters (arr : List Int) :
    bubble_sort arr = outerIters arr arr.length := rfl

theorem bubble_sort_sortedLe (arr : List Int) :
    sortedLe (bubble_sort arr) = true := by
  obtain ⟨p, q, hstate, hqlen, hqsorted, _, hperm⟩ :=
    outerIters_inv arr arr.length (le_refl _)
  have hlen : p.length + q.length = arr.length := by
    have h := hperm.length_eq
    simpa using h
  have hp : p = [] := List.eq_nil_of_length_eq_zero (by omega)
  rw [bubble_sort_eq_outerIters, hstate, hp, List.nil_append]
  exact hqsorted

theorem bubble_sort_perm (arr : List Int) : (bubble_sort arr).Perm arr := by
  obtain ⟨p, q, hstate, _, _, _, hperm⟩ :=
    outerIters_inv arr arr.length (le_refl _)
  rw [bubble_sort_eq_outerIters, hstate]
  exact hperm

theorem innerLoop_sorted_id (l : List Int) (b : Nat)
    (hl : sortedLe l = true) : innerLoop gtInt l b = l := by
  rw [innerLoop_eq_bpassN]
  exact bpassN_sorted_id b l hl

theorem bubble_sort_sorted_id (l : List Int) (hl : sortedLe l = true) :
    bubble_sort l = l := by
  show (List.range l.length).foldl
    (fun s i => innerLoop gtInt s (l.length - i - 1)) l = l
  generalize List.range l.length = is
  induction is with
  | nil => rfl
  | cons i rest ih =>
    rw [List.foldl_cons, innerLoop_sorted_id l _ hl]
    exact ih

theorem foldl_swapIfGt_length (js : List Nat) :
    ∀ s : List α, (js.foldl (swapIfGt gtb) s).length = s.length := by
  induction js with
  | nil => intro s; rfl
  | cons j rest ih =>
    intro s
    rw [List.foldl_cons, ih, swapIfGt_length]

theorem innerLoop_length (s : List α) (b : Nat) :
    (innerLoop gtb s b).length = s.length :=
  foldl_swapIfGt_length gtb (List.range b) s

theorem swapIfGtChk_eq (s : List α) (j : Nat) (hj : j + 1 < s.length) :
    swapIfGtChk gtb s j = some (swapIfGt gtb s j) := by
  unfold swapIfGtChk swapIfGt
  cases h1 : s.get? j with
  | none =>
    have hn := List.get?_eq_none.mp h1
    omega
  | some a =>
    cases h2 : s.get? (j + 1) with
    | none =>
      have hn := List.get?_eq_none.mp h2
      omega
    | some b => rfl

theorem foldlM_swapIfGtChk (js : List Nat) :
    ∀ s : List α, (∀ j ∈ js, j + 1 < s.length) →
      js.foldlM (fun t j => swapIfGtChk gtb t j) s
        = some (js.foldl (swapIfGt gtb) s) := by
  induction js with
  | nil => intro s _; rfl
  | cons j rest ih =>
    intro s hjs
    have hj : j + 1 < s.length := hjs j (List.mem_cons_self j rest)
    rw [List.foldlM_cons, swapIfGtChk_eq gtb s j hj]
    show rest.foldlM (fun t j => swapIfGtChk gtb t j) (swapIfGt gtb s j)
        = some ((j :: rest).foldl (swapIfGt gtb) s)
    rw [List.foldl_cons]
    exact ih (swapIfGt gtb s j) (fun j' hj' => by
      rw [swapIfGt_length]
      exact hjs j' (List.mem_cons_of_mem j hj'))

theorem innerLoopChk_eq (s : List α) (bound : Nat)
    (hb : ∀ j, j < bound → j + 1 < s.length) :
    innerLoopChk gtb s bound = some (innerLoop gtb s bound) :=
  foldlM_swapIfGtChk gtb (List.range bound) s
    (fun j hj => hb j (List.mem_range.mp hj))

theorem foldlM_outer (n : Nat) (is : List Nat) :
    ∀ s : List α, (∀ i ∈ is, i < n) → s.length = n →
      is.foldlM
        (fun t i =>
          (checkedSub n i).bind fun u =>
            (checkedSub u 1).bind fun bound => innerLoopChk gtb t bound) s
      = some (is.foldl (fun t i => innerLoop gtb t (n - i - 1)) s) := by
  induction is with
  | nil => intro s _ _; rfl
  | cons i rest ih =>
    intro s his hslen
    have hi : i < n := his i (List.mem_cons_self i rest)
    have h1 : checkedSub n i = some (n - i) := by
      unfold checkedSub
      rw [if_pos (le_of_lt hi)]
    have h2 : checkedSub (n - i) 1 = some (n - i - 1) := by
      unfold checkedSub
      rw [if_pos (by omega)]
    have h3 : innerLoopChk gtb s (n - i - 1)
        = some (innerLoop gtb s (n - i - 1)) := by
      apply innerLoopChk_eq
      intro j hj
      omega
    rw [List.foldlM_cons]
    have hstep : ((checkedSub n i).bind fun u =>
        (checkedSub u 1).bind fun bound => innerLoopChk gtb s bound)
        = some (innerLoop gtb s (n - i - 1)) := by
      rw [h1, Option.some_bind, h2, Option.some_bind]
      exact h3
    rw [hstep]
    show rest.foldlM _ (innerLoop gtb s (n - i - 1))
        = some ((i :: rest).foldl (fun t i => innerLoop gtb t (n - i - 1)) s)
    rw [List.foldl_cons]
    exact ih (innerLoop gtb s (n - i - 1))
      (fun i' hi' => his i' (List.mem_cons_of_mem i hi'))
      (by rw [innerLoop_length]; exact hslen)

theorem bubbleSortChkG_eq (arr : List α) :
    bubbleSortChkG gtb arr = some (bubbleSortG gtb arr) := by
  unfold bubbleSortChkG bubbleSortG
  exact foldlM_outer gtb arr.length (List.range arr.length) arr
    (fun i hi => List.mem_range.mp hi) rfl

theorem bubbleSortChk_eq (arr : List Int) :
    bubbleSortChk arr = some (bubble_sort arr) :=
  bubbleSortChkG_eq gtInt arr

theorem bpassN_filter (p : α → Bool)
    (hp : ∀ a c, gtb a c = true → p a = true → p c = true → False) :
    ∀ (b : Nat) (l : List α), (bpassN gtb b l).filter p = l.filter p := by
  intro b
  induction b with
  | zero => intro l; rfl
  | succ b ih =>
    intro l
    match l with
    | [] => rfl
    | [a] => rfl
    | a :: c :: rest =>
      by_cases hg : gtb a c = true
      · rw [bpassN, if_pos hg]
        by_cases hpa : p a = true
        · by_cases hpc : p c = true
          · exact (hp a c hg hpa hpc).elim
          · simp [List.filter_cons, hpa, hpc, ih (a :: rest)]
        · by_cases hpc : p c = true
          · simp [List.filter_cons, hpa, hpc, ih (a :: rest)]
          · simp [List.filter_cons, hpa, hpc, ih (a :: rest)]
      · rw [bpassN, if_neg hg]
        simp [List.filter_cons, ih (c :: rest)]

theorem foldl_innerLoop_filter (p : α → Bool)
    (hp : ∀ a c, gtb a c = true → p a = true → p c = true → False)
    (n : Nat) (is : List Nat) :
    ∀ s : List α,
      (is.foldl (fun t i => innerLoop gtb t (n - i - 1)) s).filter p
        = s.filter p := by
  induction is with
  | nil => intro s; rfl
  | cons i rest ih =>
    intro s
    rw [List.foldl_cons, ih, innerLoop_eq_bpassN, bpassN_filter gtb p hp]

theorem bubbleSortG_filter (p : α → Bool)
    (hp : ∀ a c, gtb a c = true → p a = true → p c = true → False)
    (arr : List α) :
    (bubbleSortG gtb arr).filter p = arr.filter p :=
  foldl_innerLoop_filter gtb p hp arr.length (List.range arr.length) arr

end BubbleProofs

namespace BubbleMapProofs

variable {α β : Type} (f : α → β) (g1 : α → α → Bool) (g2 : β → β → Bool)

theorem swapIfGt_map (hg : ∀ a c, g1 a c = g2 (f a) (f c))
    (l : List α) (j : Nat) :
    (swapIfGt g1 l j).map f = swapIfGt g2 (l.map f) j := by
  have hm1 : (l.map f).get? j = Option.map f (l.get? j) := List.get?_map f l j
  have hm2 : (l.map f).get? (j + 1) = Option.map f (l.get? (j + 1)) :=
    List.get?_map f l (j + 1)
  unfold swapIfGt
  cases h1 : l.get? j with
  | none =>
    rw [h1, Option.map_none'] at hm1
    rw [hm1]
  | some a =>
    rw [h1, Option.map_some'] at hm1
    rw [hm1]
    cases h2 : l.get? (j + 1) with
    | none =>
      rw [h2, Option.map_none'] at hm2
      rw [hm2]
    | some c =>
      rw [h2, Option.map_some'] at hm2
      rw [hm2]
      show (if g1 a c then (l.set j c).set (j + 1) a else l).map f
        = if g2 (f a) (f c) then ((l.map f).set j (f c)).set (j + 1) (f a)
          else l.map f
      rw [← hg a c]
      by_cases hac : g1 a c = true
      · rw [if_pos hac, if_pos hac, List.map_set, List.map_set]
      · rw [if_neg hac, if_neg hac]

theorem foldl_swapIfGt_map (hg : ∀ a c, g1 a c = g2 (f a) (f c))
    (js : List Nat) :
    ∀ l : List α,
      (js.foldl (swapIfGt g1) l).map f = js.foldl (swapIfGt g2) (l.map f) := by
  induction js with
  | nil => intro l; rfl
  | cons j rest ih =>
    intro l
    rw [List.foldl_cons, List.foldl_cons, ih, swapIfGt_map f g1 g2 hg]

theorem innerLoop_map (hg : ∀ a c, g1 a c = g2 (f a) (f c))
    (l : List α) (b : Nat) :
    (innerLoop g1 l b).map f = innerLoop g2 (l.map f) b :=
  foldl_swapIfGt_map f g1 g2 hg (List.range b) l

theorem foldl_innerLoop_map (hg : ∀ a c, g1 a c = g2 (f a) (f c))
    (n : Nat) (is : List Nat) :
    ∀ s : List α,
      (is.foldl (fun t i => innerLoop g1 t (n - i - 1)) s).map f
        = is.foldl (fun t i => innerLoop g2 t (n - i - 1)) (s.map f) := by
  induction is with
  | nil => intro s; rfl
  | cons i rest ih =>
    intro s
    rw [List.foldl_cons, List.foldl_cons, ih, innerLoop_map f g1 g2 hg]

theorem bubbleSortG_map (hg : ∀ a c, g1 a c = g2 (f a) (f c))
    (arr : List α) :
    (bubbleSortG g1 arr).map f = bubbleSortG g2 (arr.map f) := by
  unfold bubbleSortG
  rw [List.length_map]
  exact foldl_innerLoop_map f g1 g2 hg arr.length (List.range arr.length) arr

end BubbleMapProofs

namespace BubbleProofs

theorem bubble_sort_keyed_map (l : List (Int × Nat)) :
    (bubble_sort_keyed l).map Prod.fst = bubble_sort (l.map Prod.fst) :=
  BubbleMapProofs.bubbleSortG_map Prod.fst gtKey gtInt (fun _ _ => rfl) l

theorem bubble_sort_eq_spec (arr : List Int) :
    bubble_sort arr = bubbleSortSpec arr := by
  show bubbleSortG gtInt arr = bubbleSortSpec arr
  unfold bubbleSortG bubbleSortSpec
  generalize arr.length = n
  cases n with
  | zero => rfl
  | succ m =>
    rw [List.range_succ, List.foldl_append, List.foldl_cons, List.foldl_nil]
    have hb : m + 1 - m - 1 = 0 := by omega
    rw [hb]
    rfl

end BubbleProofs

/-- C1: for every finite sequence of signed integers, after `bubble_sort`
completes, every adjacent pair is in order: whenever positions `i` and
`i + 1` are both within bounds, the element at `i` is `≤` the element at
`i + 1`. -/
theorem C1_bubble_sort_adjacent_sorted (arr : List Int) (i : Nat)
    (x y : Int) (hx : (bubble_sort arr).get? i = some x)
    (hy : (bubble_sort arr).get? (i + 1) = some y) : x ≤ y :=
  BubbleProofs.sortedLe_get? (bubble_sort arr)
    (BubbleProofs.bubble_sort_sortedLe arr) i x y hx hy

theorem C1_witness : (1 : Int) ≤ 2 :=
  C1_bubble_sort_adjacent_sorted [2, 1] 0 1 2 (by decide) (by decide)

/-- C2: the multiset of elements after `bubble_sort` equals the multiset
before it — the result is a permutation of the input, with no value
inserted, deleted, or altered. -/
theorem C2_bubble_sort_multiset_eq (arr : List Int) :
    (↑(bubble_sort arr) : Multiset Int) = (↑arr : Multiset Int) :=
  Multiset.coe_eq_coe.mpr (BubbleProofs.bubble_sort_perm arr)

/-- C3: `bubble_sort` is total over every finite sequence, including the
empty one: the checked embedding — in which any out-of-bounds index read
and any underflowing `usize` subtraction (in particular `n - i - 1`)
returns `none` — always returns `some`, so no error branch is reachable. -/
theorem C3_bubble_sort_no_panic (arr : List Int) :
    bubbleSortChk arr = some (bubble_sort arr) :=
  BubbleProofs.bubbleSortChk_eq arr

/-- C4: the code's loop structure is equivalent, on every input, to the
spec's reference algorithm: N-1 total passes with no early exit, pass `i`
scanning adjacent pairs at positions 0 through N-i-2 and swapping exactly
when the left element is strictly greater than the right. -/
theorem C4_bubble_sort_refines_spec (arr : List Int) :
    bubble_sort arr = bubbleSortSpec arr :=
  BubbleProofs.bubble_sort_eq_spec arr

/-- C5: sorting the empty sequence yields the empty sequence and sorting a
one-element sequence yields the same sequence; in both cases no swap is
performed (the instrumented swap counter stays 0) and no error occurs (the
checked embedding returns `some`). -/
theorem C5_empty_singleton :
    bubble_sort [] = [] ∧ bubbleSortChk [] = some []
      ∧ (bubbleSortCount gtInt []).2 = 0
      ∧ ∀ a : Int, bubble_sort [a] = [a] ∧ bubbleSortChk [a] = some [a]
        ∧ (bubbleSortCount gtInt [a]).2 = 0 :=
  ⟨rfl, rfl, rfl, fun _ => ⟨rfl, rfl, rfl⟩⟩

/-- C6: `bubble_sort` is idempotent: an already-sorted input (every
adjacent left element `≤` its right neighbour) is left unchanged, and
sorting twice yields the same result as sorting once. -/
theorem C6_idempotent :
    (∀ l : List Int, sortedLe l = true → bubble_sort l = l)
      ∧ ∀ arr : List Int, bubble_sort (bubble_sort arr) = bubble_sort arr :=
  ⟨fun l hl => BubbleProofs.bubble_sort_sorted_id l hl,
   fun arr => BubbleProofs.bubble_sort_sorted_id (bubble_sort arr)
     (BubbleProofs.bubble_sort_sortedLe arr)⟩

theorem C6_witness :
    bubble_sort [1, 2, 3] = [1, 2, 3]
      ∧ bubble_sort (bubble_sort [3, 1, 2]) = bubble_sort [3, 1, 2] :=
  ⟨C6_idempotent.1 [1, 2, 3] (by decide), C6_idempotent.2 [3, 1, 2]⟩

/-- C7: stability: the swap condition is strict greater-than, so equal
elements are never swapped (`gtInt a c = false` when `a = c`); running the
routine over key/tag pairs compared by key only, the relative order of the
elements of any fixed key is preserved (their tagged subsequence is
unchanged), while the keys themselves are sorted exactly as `bubble_sort`
sorts them. -/
theorem C7_stable :
    (∀ a c : Int, a = c → gtInt a c = false)
      ∧ (∀ (l : List (Int × Nat)) (k : Int),
          (bubble_sort_keyed l).filter (fun x => decide (x.1 = k))
            = l.filter (fun x => decide (x.1 = k)))
      ∧ ∀ l : List (Int × Nat),
          (bubble_sort_keyed l).map Prod.fst = bubble_sort (l.map Prod.fst) := by
  refine ⟨?_, ?_, BubbleProofs.bubble_sort_keyed_map⟩
  · intro a c h
    subst h
    simp [gtInt]
  · intro l k
    have hp : ∀ a c : Int × Nat, gtKey a c = true →
        decide (a.1 = k) = true → decide (c.1 = k) = true → False := by
      intro a c hg hpa hpc
      have h1 : a.1 > c.1 := by simpa [gtKey] using hg
      have h2 : a.1 = k := of_decide_eq_true hpa
      have h3 : c.1 = k := of_decide_eq_true hpc
      omega
    exact BubbleProofs.bubbleSortG_filter gtKey (fun x => decide (x.1 = k)) hp l

theorem C7_witness :
    gtInt 5 5 = false
      ∧ (bubble_sort_keyed [(2, 0), (1, 1), (2, 2)]).filter
          (fun x => decide (x.1 = (2 : Int)))
          = [((2 : Int), (0 : Nat)), (1, 1), (2, 2)].filter
              (fun x => decide (x.1 = (2 : Int)))
      ∧ (bubble_sort_keyed [(2, 0), (1, 1), (2, 2)]).map Prod.fst
          = bubble_sort ([((2 : Int), (0 : Nat)), (1, 1), (2, 2)].map Prod.fst) :=
  ⟨C7_stable.1 5 5 rfl, C7_stable.2.1 [(2, 0), (1, 1), (2, 2)] 2,
   C7_stable.2.2 [(2, 0), (1, 1), (2, 2)]⟩

/-- C8: on the spec's fixed concrete inputs, `bubble_sort` produces
exactly the expected outputs. -/
theorem C8_concrete_scenarios :
    bubble_sort [64, 34, 25, 12, 22, 11, 90] = [11, 12, 22, 25, 34, 64, 90]
      ∧ bubble_sort [5, 2, 8, 1, 9] = [1, 2, 5, 8, 9] :=
  ⟨by decide, by decide⟩

/-- C9: `bubble_sort` terminates on every finite input: its (checked)
embedding is a total function that always completes with a result, of the
same length as the input. -/
theorem C9_terminates (arr : List Int) :
    ∃ out : List Int, bubbleSortChk arr = some out
      ∧ out.length = arr.length :=
  ⟨bubble_sort arr, BubbleProofs.bubbleSortChk_eq arr,
    (BubbleProofs.bubble_sort_perm arr).length_eq⟩

/-- C10: outer-loop invariant: for every input and every `k` with
`1 ≤ k ≤ N`, after the first `k` outer iterations the state splits as
`p ++ q` where the suffix `q` of length `k` is in ascending order,
dominates every element of the prefix `p`, and the state is a permutation
of the input — so the last `k` positions hold the `k` largest elements in
ascending order. -/
theorem C10_outer_invariant (arr : List Int) (k : Nat)
    (h1 : 1 ≤ k) (h2 : k ≤ arr.length) :
    ∃ p q, outerIters arr k = p ++ q ∧ q.length = k ∧ sortedLe q = true
      ∧ (∀ x ∈ p, ∀ y ∈ q, x ≤ y) ∧ (p ++ q).Perm arr :=
  BubbleProofs.outerIters_inv arr k h2

theorem C10_witness :
    ∃ p q, outerIters [2, 1] 1 = p ++ q ∧ q.length = 1
      ∧ sortedLe q = true ∧ (∀ x ∈ p, ∀ y ∈ q, x ≤ y)
      ∧ (p ++ q).Perm [2, 1] :=
  C10_outer_invariant [2, 1] 1 (by decide) (by decide)
